import Mathlib

/-!
Verification development for the CTE segmentation and executable-statement
reconstruction engine of `SQLParser` (methods `parse_cte_sql` and
`build_executable_cte_sql`).  Strings are modelled as lists of characters
over the ASCII range; every definition below is a direct translation of the
corresponding Python code.
-/

set_option maxHeartbeats 2000000

abbrev Str := List Char

/-- Python `str.isspace()` and regex `\s` restricted to the ASCII range:
space, tab, newline, carriage return, vertical tab, form feed. -/
def pyIsSpace (c : Char) : Bool :=
  c == ' ' || c == '\t' || c == '\n' || c == '\r' || c == '\x0b' || c == '\x0c'

/-- The character set of the scanner's top-of-loop skip:
`sql[pos] in " \n\t,"`. -/
def skipChar (c : Char) : Bool :=
  c == ' ' || c == '\n' || c == '\t' || c == ','

/-- Python regex word character `\w` (ASCII): letters, digits, underscore. -/
def isWordChar (c : Char) : Bool := c.isAlpha || c.isDigit || c == '_'

/-- First character of the identifier pattern `[a-zA-Z_]`. -/
def isIdentStart (c : Char) : Bool := c.isAlpha || c == '_'

/-- Later characters of the identifier pattern `[a-zA-Z0-9_]`. -/
def isIdentChar (c : Char) : Bool := c.isAlpha || c.isDigit || c == '_'

/-- Python `str.strip()`: drop leading and trailing whitespace. -/
def pyStrip (l : Str) : Str :=
  ((l.dropWhile pyIsSpace).reverse.dropWhile pyIsSpace).reverse

/-- `re.match(r'([a-zA-Z_][a-zA-Z0-9_]*)', s)`: the identifier matched at the
start of `s`, or `[]` when none matches. -/
def matchName : Str → Str
  | [] => []
  | c :: cs => if isIdentStart c then c :: cs.takeWhile isIdentChar else []

/-- `re.match(r'(?i)as\s*\(', s)`: case-insensitive `as`, optional whitespace,
then an opening parenthesis. -/
def asParenCheck : Str → Bool
  | c1 :: c2 :: r =>
      c1.toLower == 'a' && c2.toLower == 's'
        && (r.dropWhile pyIsSpace).head? == some '('
  | _ => false

/-- The inner `while` loop of `parse_cte_sql` (bracket matching), acting on the
text following the opening parenthesis.  Returns the Python slice
`sql[start:end]` (`end = pos - 1` where `pos` is the loop's final cursor) and
the text from `pos` on.  When the input ends before the bracket count returns
to zero, `end = length - 1`, so the final character is not part of the slice. -/
def scanBody : Nat → Str → Str × Str
  | _, [] => ([], [])
  | d, c :: cs =>
    if c == ')' && d == 1 then ([], cs)
    else if cs.isEmpty then ([], [])
    else
      let d2 := if c == '(' then d + 1 else if c == ')' then d - 1 else d
      let p := scanBody d2 cs
      (c :: p.1, p.2)

/-- `re.search(r'\bwith\b', sql, re.IGNORECASE)` at one position: the four
characters at index `i` spell `with` case-insensitively and both sides are
word boundaries. -/
def matchesWithAt (s : Str) (i : Nat) : Bool :=
  match s.drop i with
  | c1 :: c2 :: c3 :: c4 :: r =>
      c1.toLower == 'w' && c2.toLower == 'i' && c3.toLower == 't'
        && c4.toLower == 'h'
        && (i == 0 || !isWordChar (s.getD (i - 1) ' '))
        && (match r with | [] => true | c5 :: _ => !isWordChar c5)
  | _ => false

/-- `re.search(r'\bwith\b', sql, re.IGNORECASE)`: `match.end()` of the leftmost
whole-word occurrence of `with`, or `none`. -/
def findWithEnd (s : Str) : Option Nat :=
  ((List.range s.length).find? (fun i => matchesWithAt s i)).map (· + 4)

/-- Cursor after the top-of-loop skip of whitespace and commas
(`while pos < length and sql[pos] in " \n\t,"`). -/
def stage1 (rest : Str) : Str := rest.dropWhile skipChar

/-- The candidate CTE name read at the cursor. -/
def nameOf (rest : Str) : Str := matchName (stage1 rest)

/-- Cursor advanced past the matched name. -/
def stage2 (rest : Str) : Str := (stage1 rest).drop (nameOf rest).length

/-- Cursor after the whitespace skip that follows the name
(`while pos < length and sql[pos].isspace()`). -/
def stage3 (rest : Str) : Str := (stage2 rest).dropWhile pyIsSpace

/-- Cursor just after the opening parenthesis located by
`pos = sql.lower().find("(", pos)`. -/
def stage4 (rest : Str) : Str :=
  ((stage3 rest).dropWhile (fun c => !(c == '('))).tail

/-- The body slice `sql[start:end].strip()` is `pyStrip (bodyOf rest)`. -/
def bodyOf (rest : Str) : Str := (scanBody 1 (stage4 rest)).1

/-- Cursor after the bracket-matching loop. -/
def stage5 (rest : Str) : Str := (scanBody 1 (stage4 rest)).2

/-- Cursor after the whitespace skip that precedes the comma test
(`while pos < length and sql[pos].isspace()`). -/
def stage6 (rest : Str) : Str := (stage5 rest).dropWhile pyIsSpace

/-- The outer `while pos < length` loop of `parse_cte_sql`, acting on the text
from the cursor on.  Each iteration skips separators, reads a name, requires
`AS (`, captures a bracket-balanced body, appends the pair, and continues only
when the next non-whitespace character is a comma. -/
def parseLoop (rest : Str) : List (Str × Str) :=
  if h1 : nameOf rest = [] then []
  else
    if asParenCheck (stage3 rest) then
      if (stage6 rest).head? == some ',' then
        (nameOf rest, pyStrip (bodyOf rest)) :: parseLoop (stage6 rest)
      else
        [(nameOf rest, pyStrip (bodyOf rest))]
    else []
termination_by rest.length
decreasing_by
  have hscan : ∀ (d : Nat) (l : Str), ((scanBody d l).2).length ≤ l.length := by
    intro d l
    induction l generalizing d with
    | nil => simp [scanBody]
    | cons c cs ih =>
      simp only [scanBody]
      split
      · simp
      · split
        · simp
        · simpa using Nat.le_trans (ih _) (Nat.le_succ _)
  have hdw : ∀ (p : Char → Bool) (l : Str), (l.dropWhile p).length ≤ l.length := by
    intro p l
    induction l with
    | nil => simp
    | cons c cs ih =>
      by_cases h : p c <;> simp [List.dropWhile_cons, h] <;> omega
  have h2 : 0 < (stage1 rest).length := by
    rcases h : stage1 rest with _ | ⟨c, cs⟩
    · exact absurd (by simp [nameOf, h, matchName]) h1
    · simp
  have h3 : 0 < (nameOf rest).length := List.length_pos.mpr h1
  have h4 : (stage2 rest).length < (stage1 rest).length := by
    simp only [stage2, List.length_drop]
    omega
  have h5 : (stage1 rest).length ≤ rest.length := hdw skipChar rest
  have h6 : (stage3 rest).length ≤ (stage2 rest).length := hdw _ _
  have h7 : (stage4 rest).length ≤ (stage3 rest).length := by
    have := hdw (fun c => !(c == '(')) (stage3 rest)
    have h' := List.length_tail
      ((stage3 rest).dropWhile (fun c => !(c == '(')))
    simp only [stage4]
    omega
  have h8 : (stage5 rest).length ≤ (stage4 rest).length := hscan 1 (stage4 rest)
  have h9 : (stage6 rest).length ≤ (stage5 rest).length := hdw _ _
  omega

/-- `SQLParser.parse_cte_sql`: strip the statement, locate the first whole-word
`WITH`, then run the scanning loop from just past it.  The spec calls this
`segment`. -/
def parse_cte_sql (sqlRaw : Str) : List (Str × Str) :=
  let sql := pyStrip sqlRaw
  match findWithEnd sql with
  | none => []
  | some pos => parseLoop (sql.drop pos)

/-- Fuel-indexed mirror of `parseLoop`: `none` means the iteration budget was
exhausted.  Used to express that the scanning loop always finishes within
`length + 1` iterations. -/
def parseLoopF : Nat → Str → Option (List (Str × Str))
  | 0, _ => none
  | fuel + 1, rest =>
    if nameOf rest = [] then some []
    else
      if asParenCheck (stage3 rest) then
        if (stage6 rest).head? == some ',' then
          (parseLoopF fuel (stage6 rest)).map
            (fun l => (nameOf rest, pyStrip (bodyOf rest)) :: l)
        else
          some [(nameOf rest, pyStrip (bodyOf rest))]
      else some []

/-- Fuel-indexed mirror of `parse_cte_sql`. -/
def parse_cte_sqlF (sqlRaw : Str) : Option (List (Str × Str)) :=
  let sql := pyStrip sqlRaw
  match findWithEnd sql with
  | none => some []
  | some pos => parseLoopF (sqlRaw.length + 1) (sql.drop pos)

/-- The rendering `f"{n} AS (\n{s}\n)"` of one accumulated pair. -/
def renderPart (p : Str × Str) : Str :=
  p.1 ++ (" AS (\n".toList) ++ p.2 ++ ("\n)".toList)

/-- The full statement `"WITH\n" + ",\n".join(with_parts) +
f"\nSELECT * FROM {name}"` assembled from the accumulated pairs. -/
def fullStmt (accumulated : List (Str × Str)) (name : Str) : Str :=
  ("WITH\n".toList)
    ++ List.intercalate (",\n".toList) (accumulated.map renderPart)
    ++ ("\nSELECT * FROM ".toList) ++ name

/-- Python dict assignment `result[name] = v`: overwrite in place when the key
is present, append otherwise (insertion order is preserved). -/
def dictInsert (d : List (Str × Str)) (k v : Str) : List (Str × Str) :=
  if d.any (fun p => p.1 == k) then
    d.map (fun p => if p.1 == k then (p.1, v) else p)
  else d ++ [(k, v)]

/-- Python dict lookup `d[k]` (as an option). -/
def dictLookup (d : List (Str × Str)) (k : Str) : Option Str :=
  (d.find? (fun p => p.1 == k)).map (·.2)

/-- The `for name, sql_body in ctes` loop of `build_executable_cte_sql`. -/
def buildLoop : List (Str × Str) → List (Str × Str) → List (Str × Str) →
    List (Str × Str)
  | _, result, [] => result
  | accumulated, result, (name, body) :: rest =>
    let acc2 := accumulated ++ [(name, body)]
    buildLoop acc2 (dictInsert result name (fullStmt acc2 name)) rest

/-- `SQLParser.build_executable_cte_sql`: for each CTE in order, build the
statement re-declaring every CTE up to and including it and store it under the
CTE's name.  The spec calls this `reconstruct`. -/
def build_executable_cte_sql (ctes : List (Str × Str)) : List (Str × Str) :=
  buildLoop [] [] ctes

/-- Fuel-indexed mirror of `buildLoop`. -/
def buildLoopF : Nat → List (Str × Str) → List (Str × Str) →
    List (Str × Str) → Option (List (Str × Str))
  | 0, _, _, _ => none
  | _ + 1, _, result, [] => some result
  | fuel + 1, accumulated, result, (name, body) :: rest =>
    let acc2 := accumulated ++ [(name, body)]
    buildLoopF fuel acc2 (dictInsert result name (fullStmt acc2 name)) rest

/-- `true` when the bracket-matching loop started at depth `d` never consumes a
closing parenthesis at depth 1 while scanning the given text. -/
def noClose : Nat → Str → Bool
  | _, [] => true
  | d, c :: cs =>
    if c == ')' && d == 1 then false
    else noClose (if c == '(' then d + 1 else if c == ')' then d - 1 else d) cs

/-- The bracket depth after scanning the given text from depth `d`. -/
def depthA : Nat → Str → Nat
  | d, [] => d
  | d, c :: cs =>
    depthA (if c == '(' then d + 1 else if c == ')' then d - 1 else d) cs

/-- Closing-parenthesis excess of a text: count of `)` minus count of `(`. -/
def exc (l : Str) : ℤ :=
  (l.count ')' : ℤ) - (l.count '(' : ℤ)

/-- The text is a suffix of some statement with balanced parentheses: no
prefix has a larger closing excess than the whole text. -/
def SuffOK (r : Str) : Prop :=
  ∀ i, i ≤ r.length → exc (r.take i) ≤ exc r

/-- Balanced parentheses overall: every prefix has at least as many `(` as
`)`, and the whole text has equally many of each. -/
def BalancedAll (s : Str) : Prop :=
  (∀ i, i ≤ s.length → exc (s.take i) ≤ 0) ∧ exc s = 0

instance (r : Str) : Decidable (SuffOK r) := by
  unfold SuffOK
  infer_instance

instance (s : Str) : Decidable (BalancedAll s) := by
  unfold BalancedAll
  infer_instance

/-- One well-formed CTE declaration, as raw text material: the separator run
preceding its name, the name, whitespace, the two letters of `AS`, optional
whitespace, and the parenthesised body. -/
structure Decl where
  sep : Str
  name : Str
  wsA : Str
  aC : Char
  sC : Char
  wsB : Str
  body : Str

/-- The declaration text `name AS (body)` with its whitespace material. -/
def Decl.text (d : Decl) : Str :=
  d.name ++ d.wsA ++ d.aC :: d.sC :: (d.wsB ++ '(' :: (d.body ++ [')']))

/-- Well-formedness of one declaration: the separator consists of characters
the scanner skips (space, newline, tab, comma), the name follows the
identifier grammar, nonempty whitespace separates name and `AS`, the `AS` is
case-insensitive, optional whitespace precedes `(`, and the body is
bracket-balanced. -/
def Decl.OK (d : Decl) : Prop :=
  (∀ c ∈ d.sep, skipChar c = true) ∧
  d.name ≠ [] ∧ isIdentStart (d.name.headD ' ') = true ∧
  (∀ c ∈ d.name.tail, isIdentChar c = true) ∧
  d.wsA ≠ [] ∧ (∀ c ∈ d.wsA, pyIsSpace c = true) ∧
  (d.aC = 'a' ∨ d.aC = 'A') ∧ (d.sC = 's' ∨ d.sC = 'S') ∧
  (∀ c ∈ d.wsB, pyIsSpace c = true) ∧
  noClose 1 d.body = true ∧ depthA 1 d.body = 1

instance (d : Decl) : Decidable d.OK := by
  unfold Decl.OK
  infer_instance

/-- The `(name, body)` pair the segmenter is expected to produce for a
well-formed declaration. -/
def entryOf (d : Decl) : Str × Str := (d.name, pyStrip d.body)

/-- The text following the first declaration: a comma, then each further
declaration with its separator run, then the trailing text. -/
def declsSuffix : List Decl → Str → Str
  | [], tail => tail
  | d :: rest, tail => ',' :: (d.sep ++ d.text ++ declsSuffix rest tail)

/-- A well-formed multi-CTE statement: the keyword `with`, the first
declaration preceded by its separator run, the further declarations each
after a comma, and the trailing text (the final query). -/
def wfText (d : Decl) (rest : List Decl) (tail : Str) : Str :=
  ("with".toList) ++ d.sep ++ d.text ++ declsSuffix rest tail

/-! ### Generic list and character helpers -/

theorem length_dropWhile_le' (p : Char → Bool) (l : Str) :
    (l.dropWhile p).length ≤ l.length := by
  induction l with
  | nil => simp
  | cons c cs ih =>
    by_cases h : p c
    · rw [List.dropWhile_cons_of_pos h]
      exact Nat.le_trans ih (Nat.le_succ _)
    · rw [List.dropWhile_cons_of_neg h]

theorem dropWhile_append_sat (p : Char → Bool) :
    ∀ (a b : Str), (∀ c ∈ a, p c = true) →
      (∀ c, b.head? = some c → p c = false) → (a ++ b).dropWhile p = b := by
  intro a
  induction a with
  | nil =>
    intro b _ hb
    cases b with
    | nil => rfl
    | cons c cs =>
      rw [List.nil_append]
      exact List.dropWhile_cons_of_neg (by simp [hb c rfl])
  | cons x a ih =>
    intro b ha hb
    have hx : p x = true := ha x (by simp)
    rw [List.cons_append, List.dropWhile_cons_of_pos hx]
    exact ih b (fun c hc => ha c (by simp [hc])) hb

theorem takeWhile_append_sat (p : Char → Bool) :
    ∀ (a b : Str), (∀ c ∈ a, p c = true) →
      (∀ c, b.head? = some c → p c = false) → (a ++ b).takeWhile p = a := by
  intro a
  induction a with
  | nil =>
    intro b _ hb
    cases b with
    | nil => rfl
    | cons c cs =>
      rw [List.nil_append]
      exact List.takeWhile_cons_of_neg (by simp [hb c rfl])
  | cons x a ih =>
    intro b ha hb
    have hx : p x = true := ha x (by simp)
    rw [List.cons_append, List.takeWhile_cons_of_pos hx]
    rw [ih b (fun c hc => ha c (by simp [hc])) hb]

theorem dropWhile_head_false (p : Char → Bool) (l : Str) (c : Char) (m : Str)
    (h : l.dropWhile p = c :: m) : p c = false := by
  have h2 := List.head?_dropWhile_not p l
  rw [h] at h2
  simpa using h2

theorem of_skipChar {c : Char} (h : skipChar c = true) :
    c = ' ' ∨ c = '\n' ∨ c = '\t' ∨ c = ',' := by
  simp only [skipChar, Bool.or_eq_true, beq_iff_eq] at h
  tauto

theorem of_pyIsSpace {c : Char} (h : pyIsSpace c = true) :
    c = ' ' ∨ c = '\t' ∨ c = '\n' ∨ c = '\r' ∨ c = '\x0b' ∨ c = '\x0c' := by
  simp only [pyIsSpace, Bool.or_eq_true, beq_iff_eq] at h
  tauto

theorem skipChar_not_word {c : Char} (h : skipChar c = true) :
    isWordChar c = false := by
  rcases of_skipChar h with rfl | rfl | rfl | rfl <;> decide

theorem identStart_not_skip {c : Char} (h : isIdentStart c = true) :
    skipChar c = false := by
  cases h2 : skipChar c
  · rfl
  · rcases of_skipChar h2 with rfl | rfl | rfl | rfl <;> exact absurd h (by decide)

theorem identStart_not_space {c : Char} (h : isIdentStart c = true) :
    pyIsSpace c = false := by
  cases h2 : pyIsSpace c
  · rfl
  · rcases of_pyIsSpace h2 with rfl | rfl | rfl | rfl | rfl | rfl <;>
      exact absurd h (by decide)

theorem space_not_identChar {c : Char} (h : pyIsSpace c = true) :
    isIdentChar c = false := by
  rcases of_pyIsSpace h with rfl | rfl | rfl | rfl | rfl | rfl <;> decide

theorem space_ne_lparen {c : Char} (h : pyIsSpace c = true) :
    (!(c == '(')) = true := by
  rcases of_pyIsSpace h with rfl | rfl | rfl | rfl | rfl | rfl <;> decide

theorem space_no_paren {c : Char} (h : pyIsSpace c = true) :
    c ≠ '(' ∧ c ≠ ')' := by
  rcases of_pyIsSpace h with rfl | rfl | rfl | rfl | rfl | rfl <;>
    exact ⟨by decide, by decide⟩

/-! ### scanBody lemmas -/

theorem scanBody_snd_length : ∀ (d : Nat) (l : Str),
    ((scanBody d l).2).length ≤ l.length := by
  intro d l
  induction l generalizing d with
  | nil => simp [scanBody]
  | cons c cs ih =>
    simp only [scanBody]
    split
    · simp
    · split
      · simp
      · simpa using Nat.le_trans (ih _) (Nat.le_succ _)

theorem scanBody_append (b : Str) : ∀ (d : Nat) (r : Str), noClose d b = true →
    r ≠ [] →
    scanBody d (b ++ r)
      = (b ++ (scanBody (depthA d b) r).1, (scanBody (depthA d b) r).2) := by
  induction b with
  | nil => intro d r _ _; simp [depthA]
  | cons c cs ih =>
    intro d r hnc hr
    have hcl : (c == ')' && d == 1) = false := by
      by_contra hx
      simp only [Bool.not_eq_false] at hx
      rw [noClose, if_pos hx] at hnc
      exact Bool.false_ne_true hnc
    have hnc2 : noClose (if c == '(' then d + 1 else if c == ')' then d - 1 else d) cs
        = true := by
      rw [noClose, if_neg (by simp [hcl])] at hnc
      exact hnc
    have hne : ((cs ++ r).isEmpty) = false := by
      cases cs <;> cases r <;> simp_all
    rw [List.cons_append, scanBody]
    rw [if_neg (by simp [hcl]), if_neg (by simp [hne])]
    simp only [ih _ r hnc2 hr, depthA]
    simp

theorem scanBody_closed (b : Str) (r : Str)
    (hnc : noClose 1 b = true) (hd : depthA 1 b = 1) :
    scanBody 1 (b ++ ')' :: r) = (b, r) := by
  rw [scanBody_append b 1 (')' :: r) hnc (by simp), hd]
  cases r <;> simp [scanBody]

/-! ### parseLoop unfolding -/

theorem parseLoop_eq (rest : Str) :
    parseLoop rest =
      if nameOf rest = [] then []
      else
        if asParenCheck (stage3 rest) then
          (nameOf rest, pyStrip (bodyOf rest)) ::
            (if (stage6 rest).head? == some ',' then parseLoop (stage6 rest)
             else [])
        else [] := by
  rw [parseLoop]
  split
  · rfl
  · split
    · split
      · rfl
      · rfl
    · rfl

/-! ### One scanner iteration over a well-formed declaration -/

theorem parseLoop_flat (lead sep name wsA : Str) (aC sC : Char)
    (wsB body S : Str)
    (hlead : ∀ c ∈ lead, skipChar c = true)
    (hsep : ∀ c ∈ sep, skipChar c = true)
    (hname : name ≠ []) (hnst : isIdentStart (name.headD ' ') = true)
    (hnall : ∀ c ∈ name.tail, isIdentChar c = true)
    (hwane : wsA ≠ []) (hwa : ∀ c ∈ wsA, pyIsSpace c = true)
    (haC : aC = 'a' ∨ aC = 'A') (hsC : sC = 's' ∨ sC = 'S')
    (hwb : ∀ c ∈ wsB, pyIsSpace c = true)
    (hnc : noClose 1 body = true) (hda : depthA 1 body = 1) :
    parseLoop ((lead ++ sep) ++
        (name ++ (wsA ++ aC :: sC :: (wsB ++ '(' :: (body ++ ')' :: S)))))
      = (name, pyStrip body) ::
          (if (S.dropWhile pyIsSpace).head? == some ',' then
            parseLoop (S.dropWhile pyIsSpace)
          else []) := by
  obtain ⟨n0, ntl, rfl⟩ : ∃ n0 ntl, name = n0 :: ntl := by
    cases name with
    | nil => exact absurd rfl hname
    | cons a b => exact ⟨a, b, rfl⟩
  obtain ⟨w0, wtl, rfl⟩ : ∃ w0 wtl, wsA = w0 :: wtl := by
    cases wsA with
    | nil => exact absurd rfl hwane
    | cons a b => exact ⟨a, b, rfl⟩
  have hn0 : isIdentStart n0 = true := by simpa using hnst
  have hw0 : pyIsSpace w0 = true := hwa w0 (by simp)
  have hntl : ∀ c ∈ ntl, isIdentChar c = true := by
    intro c hc; exact hnall c (by simpa using hc)
  have haCns : pyIsSpace aC = false := by
    rcases haC with rfl | rfl <;> decide
  set T := (lead ++ sep) ++
      ((n0 :: ntl) ++ ((w0 :: wtl) ++ aC :: sC :: (wsB ++ '(' :: (body ++ ')' :: S))))
    with hTdef
  have hst1 : stage1 T = (n0 :: ntl) ++ ((w0 :: wtl) ++ aC :: sC :: (wsB ++ '(' :: (body ++ ')' :: S))) := by
    rw [hTdef, stage1]
    apply dropWhile_append_sat
    · intro c hc
      rcases List.mem_append.mp hc with h | h
      · exact hlead c h
      · exact hsep c h
    · intro c hc
      simp only [List.cons_append, List.head?] at hc
      cases hc
      exact identStart_not_skip hn0
  have hnm : nameOf T = n0 :: ntl := by
    rw [nameOf, hst1, List.cons_append, matchName, if_pos hn0]
    rw [takeWhile_append_sat _ ntl _ hntl]
    intro c hc
    simp only [List.cons_append, List.head?] at hc
    cases hc
    exact space_not_identChar hw0
  have hst2 : stage2 T = (w0 :: wtl) ++ aC :: sC :: (wsB ++ '(' :: (body ++ ')' :: S)) := by
    rw [stage2, hst1, hnm, List.drop_left]
  have hst3 : stage3 T = aC :: sC :: (wsB ++ '(' :: (body ++ ')' :: S)) := by
    rw [stage3, hst2]
    apply dropWhile_append_sat _ _ _ hwa
    intro c hc
    simp only [List.head?] at hc
    cases hc
    exact haCns
  have hdwB : (wsB ++ '(' :: (body ++ ')' :: S)).dropWhile pyIsSpace
      = '(' :: (body ++ ')' :: S) := by
    apply dropWhile_append_sat _ _ _ hwb
    intro c hc
    simp only [List.head?] at hc
    cases hc
    decide
  have hAP : asParenCheck (stage3 T) = true := by
    rw [hst3]
    simp only [asParenCheck, hdwB, List.head?]
    rcases haC with rfl | rfl <;> rcases hsC with rfl | rfl <;> decide
  have hsplit : aC :: sC :: (wsB ++ '(' :: (body ++ ')' :: S))
      = (aC :: sC :: wsB) ++ ('(' :: (body ++ ')' :: S)) := by simp
  have hdp : ((aC :: sC :: wsB) ++ ('(' :: (body ++ ')' :: S))).dropWhile
      (fun c => !(c == '(')) = '(' :: (body ++ ')' :: S) := by
    apply dropWhile_append_sat
    · intro c hc
      rcases List.mem_cons.mp hc with rfl | hc2
      · rcases haC with rfl | rfl <;> decide
      · rcases List.mem_cons.mp hc2 with rfl | hc3
        · rcases hsC with rfl | rfl <;> decide
        · exact space_ne_lparen (hwb c hc3)
    · intro c hc
      simp only [List.head?] at hc
      cases hc
      decide
  have hst4 : stage4 T = body ++ ')' :: S := by
    rw [stage4, hst3, hsplit, hdp]
    rfl
  have hbody : bodyOf T = body := by
    rw [bodyOf, hst4, scanBody_closed body S hnc hda]
  have hst5 : stage5 T = S := by
    rw [stage5, hst4, scanBody_closed body S hnc hda]
  have hst6 : stage6 T = S.dropWhile pyIsSpace := by
    rw [stage6, hst5]
  rw [parseLoop_eq, hnm, hAP, hbody, hst6]
  simp

theorem parseLoop_gram (decls : List Decl) : ∀ (d : Decl) (lead tail : Str),
    d.OK → (∀ x ∈ decls, x.OK) → (∀ c ∈ lead, skipChar c = true) →
    parseLoop ((lead ++ d.sep) ++ (d.text ++ declsSuffix decls tail))
      = (d :: decls).map entryOf
        ++ (if (tail.dropWhile pyIsSpace).head? == some ',' then
              parseLoop (tail.dropWhile pyIsSpace)
            else []) := by
  induction decls with
  | nil =>
    intro d lead tail hd _ hlead
    obtain ⟨hsep, hnne, hnst, hnall, hwane, hwa, haC, hsC, hwb, hnc, hda⟩ := hd
    have heq : (lead ++ d.sep) ++ (d.text ++ declsSuffix [] tail)
        = (lead ++ d.sep) ++ (d.name ++ (d.wsA ++ d.aC :: d.sC ::
            (d.wsB ++ '(' :: (d.body ++ ')' :: tail)))) := by
      simp [Decl.text, declsSuffix, List.append_assoc]
    rw [heq, parseLoop_flat _ _ _ _ _ _ _ _ _ hlead hsep hnne hnst hnall hwane
      hwa haC hsC hwb hnc hda]
    simp [entryOf]
  | cons d2 decls2 ih =>
    intro d lead tail hd hds hlead
    obtain ⟨hsep, hnne, hnst, hnall, hwane, hwa, haC, hsC, hwb, hnc, hda⟩ := hd
    have heq : (lead ++ d.sep) ++ (d.text ++ declsSuffix (d2 :: decls2) tail)
        = (lead ++ d.sep) ++ (d.name ++ (d.wsA ++ d.aC :: d.sC ::
            (d.wsB ++ '(' :: (d.body ++ ')' ::
              declsSuffix (d2 :: decls2) tail)))) := by
      simp [Decl.text, List.append_assoc]
    rw [heq, parseLoop_flat _ _ _ _ _ _ _ _ _ hlead hsep hnne hnst hnall hwane
      hwa haC hsC hwb hnc hda]
    have hS : declsSuffix (d2 :: decls2) tail
        = ',' :: (d2.sep ++ d2.text ++ declsSuffix decls2 tail) := rfl
    have hdwS : (declsSuffix (d2 :: decls2) tail).dropWhile pyIsSpace
        = ',' :: (d2.sep ++ d2.text ++ declsSuffix decls2 tail) := by
      rw [hS]
      exact List.dropWhile_cons_of_neg (by decide)
    rw [hdwS]
    have hassoc : ',' :: (d2.sep ++ d2.text ++ declsSuffix decls2 tail)
        = ([','] ++ d2.sep) ++ (d2.text ++ declsSuffix decls2 tail) := by
      simp
    rw [if_pos (by simp), hassoc,
      ih d2 [','] tail (hds d2 (by simp))
        (fun x hx => hds x (by simp [hx]))
        (by intro c hc; simp at hc; subst hc; decide)]
    simp [entryOf]

/-! ### Fuel adequacy: the scanning loop finishes within length + 1 rounds -/

theorem stage6_length_lt (rest : Str) (h1 : ¬ nameOf rest = []) :
    (stage6 rest).length < rest.length := by
  have hdw : ∀ (p : Char → Bool) (l : Str), (l.dropWhile p).length ≤ l.length :=
    length_dropWhile_le'
  have h2 : 0 < (stage1 rest).length := by
    rcases h : stage1 rest with _ | ⟨c, cs⟩
    · exact absurd (by simp [nameOf, h, matchName]) h1
    · simp
  have h3 : 0 < (nameOf rest).length := List.length_pos.mpr h1
  have h4 : (stage2 rest).length < (stage1 rest).length := by
    simp only [stage2, List.length_drop]
    omega
  have h5 : (stage1 rest).length ≤ rest.length := hdw skipChar rest
  have h6 : (stage3 rest).length ≤ (stage2 rest).length := hdw _ _
  have h7 : (stage4 rest).length ≤ (stage3 rest).length := by
    have := hdw (fun c => !(c == '(')) (stage3 rest)
    have h' := List.length_tail
      ((stage3 rest).dropWhile (fun c => !(c == '(')))
    simp only [stage4]
    omega
  have h8 : (stage5 rest).length ≤ (stage4 rest).length :=
    scanBody_snd_length 1 (stage4 rest)
  have h9 : (stage6 rest).length ≤ (stage5 rest).length := hdw _ _
  omega

theorem parseLoopF_correct : ∀ (n : Nat) (rest : Str), rest.length < n →
    parseLoopF n rest = some (parseLoop rest) := by
  intro n
  induction n with
  | zero => intro rest h; omega
  | succ n ih =>
    intro rest h
    rw [parseLoopF, parseLoop_eq]
    by_cases h1 : nameOf rest = []
    · rw [if_pos h1, if_pos h1]
    · rw [if_neg h1, if_neg h1]
      by_cases h2 : asParenCheck (stage3 rest) = true
      · rw [if_pos h2, if_pos h2]
        by_cases h3 : ((stage6 rest).head? == some ',') = true
        · rw [if_pos h3, if_pos h3]
          rw [ih (stage6 rest) (by have := stage6_length_lt rest h1; omega)]
          rfl
        · rw [if_neg h3, if_neg h3]
      · rw [if_neg h2, if_neg h2]

theorem pyStrip_length_le (l : Str) : (pyStrip l).length ≤ l.length := by
  unfold pyStrip
  have h1 := length_dropWhile_le' pyIsSpace l
  have h2 := length_dropWhile_le' pyIsSpace (l.dropWhile pyIsSpace).reverse
  simp only [List.length_reverse] at h1 h2 ⊢
  omega

theorem parse_cte_sqlF_correct (s : Str) :
    parse_cte_sqlF s = some (parse_cte_sql s) := by
  simp only [parse_cte_sqlF, parse_cte_sql]
  cases h : findWithEnd (pyStrip s) with
  | none => rfl
  | some pos =>
    apply parseLoopF_correct
    have h1 := pyStrip_length_le s
    simp only [List.length_drop]
    omega

/-! ### Dictionary and reconstruction lemmas -/

theorem bool_not_true {b : Bool} (h : ¬ b = true) : b = false := by
  cases b
  · rfl
  · exact absurd rfl h

theorem strBeq_false_of_ne {a b : Str} (h : ¬ a = b) : (a == b) = false := by
  cases hx : (a == b)
  · rfl
  · exact absurd (by simpa using hx) h

theorem findPair_cons_pos (n : Str) (p : Str × Str) (l : List (Str × Str))
    (h : (p.1 == n) = true) :
    (p :: l).find? (fun q => q.1 == n) = some p :=
  List.find?_cons_of_pos _ h

theorem findPair_cons_neg (n : Str) (p : Str × Str) (l : List (Str × Str))
    (h : (p.1 == n) = false) :
    (p :: l).find? (fun q => q.1 == n) = l.find? (fun q => q.1 == n) :=
  List.find?_cons_of_neg _ (by simp [h])

theorem find_map_self (k v : Str) : ∀ (d : List (Str × Str)),
    d.any (fun p => p.1 == k) = true →
    ((d.map (fun p => if p.1 == k then (p.1, v) else p)).find?
        (fun p => p.1 == k)).map (·.2) = some v := by
  intro d
  induction d with
  | nil => intro h; simp at h
  | cons p ps ih =>
    intro h
    by_cases hp : (p.1 == k) = true
    · simp only [List.map_cons, if_pos hp]
      rw [findPair_cons_pos k ((p.1, v)) _ hp]
      rfl
    · have h2 : ps.any (fun p => p.1 == k) = true := by
        simp only [List.any_cons, bool_not_true hp, Bool.false_or] at h
        exact h
      simp only [List.map_cons, if_neg hp]
      rw [findPair_cons_neg k p _ (bool_not_true hp)]
      exact ih h2

theorem find_append_self (k v : Str) : ∀ (d : List (Str × Str)),
    d.any (fun p => p.1 == k) = false →
    (((d ++ [(k, v)]).find? (fun p => p.1 == k)).map (·.2)) = some v := by
  intro d
  induction d with
  | nil =>
    intro h
    rw [List.nil_append, findPair_cons_pos k ((k, v)) _ (by simp)]
    rfl
  | cons p ps ih =>
    intro h
    simp only [List.any_cons, Bool.or_eq_false_iff] at h
    rw [List.cons_append, findPair_cons_neg k p _ h.1]
    exact ih h.2

theorem dictLookup_insert_self (d : List (Str × Str)) (k v : Str) :
    dictLookup (dictInsert d k v) k = some v := by
  unfold dictInsert dictLookup
  by_cases h : d.any (fun p => p.1 == k) = true
  · rw [if_pos h]
    exact find_map_self k v d h
  · rw [if_neg h]
    exact find_append_self k v d (bool_not_true h)

theorem dictLookup_insert_other (d : List (Str × Str)) (k v n : Str)
    (hn : ¬ n = k) : dictLookup (dictInsert d k v) n = dictLookup d n := by
  unfold dictInsert dictLookup
  by_cases h : d.any (fun p => p.1 == k) = true
  · rw [if_pos h]
    clear h
    induction d with
    | nil => rfl
    | cons p ps ih =>
      by_cases hp : (p.1 == n) = true
      · have hpn : p.1 = n := by simpa using hp
        have hpk : ¬ (p.1 == k) = true := by simp [hpn, hn]
        simp only [List.map_cons, if_neg hpk]
        rw [findPair_cons_pos n p _ hp, findPair_cons_pos n p _ hp]
      · by_cases hpk : (p.1 == k) = true
        · simp only [List.map_cons, if_pos hpk]
          rw [findPair_cons_neg n ((p.1, v)) _ (bool_not_true hp),
            findPair_cons_neg n p _ (bool_not_true hp)]
          exact ih
        · simp only [List.map_cons, if_neg hpk]
          rw [findPair_cons_neg n p _ (bool_not_true hp),
            findPair_cons_neg n p _ (bool_not_true hp)]
          exact ih
  · rw [if_neg h]
    clear h
    induction d with
    | nil =>
      rw [List.nil_append,
        findPair_cons_neg n ((k, v)) _ (strBeq_false_of_ne (fun hkn => hn hkn.symm))]
    | cons p ps ih =>
      by_cases hp : (p.1 == n) = true
      · rw [List.cons_append, findPair_cons_pos n p _ hp,
          findPair_cons_pos n p _ hp]
      · rw [List.cons_append, findPair_cons_neg n p _ (bool_not_true hp),
          findPair_cons_neg n p _ (bool_not_true hp)]
        exact ih

theorem buildLoop_lookup_none (n : Str) : ∀ (l acc res : List (Str × Str)),
    (∀ p ∈ l, ¬ p.1 = n) →
    dictLookup (buildLoop acc res l) n = dictLookup res n := by
  intro l
  induction l with
  | nil => intro acc res _; rfl
  | cons p l ih =>
    intro acc res hl
    obtain ⟨pn, pb⟩ := p
    rw [buildLoop]
    rw [ih _ _ (fun q hq => hl q (by simp [hq]))]
    exact dictLookup_insert_other _ _ _ _ (fun h => hl (pn, pb) (by simp) h.symm)

theorem buildLoop_lookup_at (x : Str × Str) (b : List (Str × Str))
    (hb : ∀ p ∈ b, ¬ p.1 = x.1) : ∀ (a acc res : List (Str × Str)),
    dictLookup (buildLoop acc res (a ++ x :: b)) x.1
      = some (fullStmt ((acc ++ a) ++ [x]) x.1) := by
  intro a
  induction a with
  | nil =>
    intro acc res
    obtain ⟨xn, xb⟩ := x
    rw [List.nil_append, buildLoop, buildLoop_lookup_none _ _ _ _ hb]
    rw [dictLookup_insert_self]
    simp
  | cons y a ih =>
    intro acc res
    obtain ⟨yn, yb⟩ := y
    rw [List.cons_append, buildLoop, ih]
    have : (acc ++ [(yn, yb)]) ++ a = acc ++ ((yn, yb) :: a) := by simp
    rw [this]

theorem buildLoop_keys_nodup : ∀ (l acc res : List (Str × Str)),
    ((res.map Prod.fst).Nodup) → (((buildLoop acc res l).map Prod.fst).Nodup) := by
  intro l
  induction l with
  | nil => intro acc res h; exact h
  | cons p l ih =>
    intro acc res h
    obtain ⟨pn, pb⟩ := p
    rw [buildLoop]
    apply ih
    unfold dictInsert
    by_cases hany : res.any (fun q => q.1 == pn) = true
    · rw [if_pos hany]
      have : (res.map (fun q => if q.1 == pn then (q.1, fullStmt (acc ++ [(pn, pb)]) pn) else q)).map Prod.fst
          = res.map Prod.fst := by
        rw [List.map_map]
        apply List.map_congr_left
        intro q _
        simp only [Function.comp]
        split
        · rfl
        · rfl
      rw [this]
      exact h
    · rw [if_neg hany]
      rw [List.map_append]
      have hnotin : pn ∉ res.map Prod.fst := by
        intro hmem
        apply hany
        rw [List.any_eq_true]
        obtain ⟨q, hq, hq2⟩ := List.mem_map.mp hmem
        exact ⟨q, hq, by simp [hq2]⟩
      simp [List.nodup_append, h, hnotin]

theorem countPair_cons (n : Str) (p : Str × Str) (l : List (Str × Str)) :
    (p :: l).countP (fun q => q.1 == n)
      = l.countP (fun q => q.1 == n) + (if (p.1 == n) = true then 1 else 0) := by
  by_cases hp : (p.1 == n) = true
  · rw [if_pos hp]
    exact List.countP_cons_of_pos _ _ hp
  · rw [if_neg hp, Nat.add_zero]
    exact List.countP_cons_of_neg (fun q => q.1 == n) l hp

theorem countP_key_one (n : Str) : ∀ (d : List (Str × Str)),
    ((d.map Prod.fst).Nodup) → (∃ v, dictLookup d n = some v) →
    d.countP (fun p => p.1 == n) = 1 := by
  intro d
  induction d with
  | nil => intro _ h; simp [dictLookup, List.find?] at h
  | cons p ps ih =>
    intro hnd hv
    simp only [List.map_cons, List.nodup_cons] at hnd
    by_cases hp : (p.1 == n) = true
    · rw [countPair_cons, if_pos hp]
      have hzero : ps.countP (fun q => q.1 == n) = 0 := by
        rw [List.countP_eq_zero]
        intro q hq
        have hq1 : q.1 ≠ n := by
          intro hqn
          apply hnd.1
          have hpn : p.1 = n := by simpa using hp
          rw [hpn, ← hqn]
          exact List.mem_map.mpr ⟨q, hq, rfl⟩
        simp [hq1]
      omega
    · rw [countPair_cons, if_neg hp]
      simp only [Nat.add_zero]
      apply ih hnd.2
      obtain ⟨v, hv⟩ := hv
      refine ⟨v, ?_⟩
      rw [dictLookup] at hv ⊢
      rw [findPair_cons_neg n p _ (bool_not_true hp)] at hv
      exact hv

/-! ### Parenthesis-balance machinery -/

theorem exc_append (a b : Str) : exc (a ++ b) = exc a + exc b := by
  simp only [exc, List.count_append]
  push_cast
  ring

theorem exc_singleton (c : Char) :
    exc [c] = (if c = ')' then 1 else if c = '(' then (-1 : ℤ) else 0) := by
  by_cases h1 : c = ')'
  · subst h1; decide
  · by_cases h2 : c = '('
    · subst h2; decide
    · rw [if_neg h1, if_neg h2]
      have hz1 : ([c].count ')') = 0 := by
        rw [List.count_eq_zero]
        intro hx
        rw [List.mem_singleton] at hx
        exact h1 hx.symm
      have hz2 : ([c].count '(') = 0 := by
        rw [List.count_eq_zero]
        intro hx
        rw [List.mem_singleton] at hx
        exact h2 hx.symm
      simp [exc, hz1, hz2]

theorem exc_cons (c : Char) (cs : Str) :
    exc (c :: cs)
      = exc cs + (if c = ')' then 1 else if c = '(' then (-1 : ℤ) else 0) := by
  have h : c :: cs = [c] ++ cs := rfl
  rw [h, exc_append, exc_singleton]
  ring

theorem SuffOK_of_append (a b : Str) (h : SuffOK (a ++ b)) : SuffOK b := by
  intro i hi
  have h2 := h (a.length + i) (by simp only [List.length_append]; omega)
  rw [List.take_append i] at h2
  rw [exc_append, exc_append] at h2
  omega

theorem SuffOK_dropWhile (p : Char → Bool) (l : Str) (h : SuffOK l) :
    SuffOK (l.dropWhile p) :=
  SuffOK_of_append (l.takeWhile p) _
    (by rw [List.takeWhile_append_dropWhile]; exact h)

theorem SuffOK_drop (n : Nat) (l : Str) (h : SuffOK l) : SuffOK (l.drop n) :=
  SuffOK_of_append (l.take n) _ (by rw [List.take_append_drop]; exact h)

theorem exc_all_space (T : Str) (hT : ∀ c ∈ T, pyIsSpace c = true) :
    exc T = 0 := by
  have h1 : T.count ')' = 0 := by
    rw [List.count_eq_zero]
    intro hx
    exact absurd (hT _ hx) (by decide)
  have h2 : T.count '(' = 0 := by
    rw [List.count_eq_zero]
    intro hx
    exact absurd (hT _ hx) (by decide)
  simp [exc, h1, h2]

theorem SuffOK_drop_trailing (P T : Str) (hT : ∀ c ∈ T, pyIsSpace c = true)
    (h : SuffOK (P ++ T)) : SuffOK P := by
  intro i hi
  have h2 := h i (by simp only [List.length_append]; omega)
  rw [List.take_append_of_le_length hi, exc_append, exc_all_space T hT] at h2
  omega

theorem strip_split (s : Str) :
    s.dropWhile pyIsSpace
      = pyStrip s ++ ((s.dropWhile pyIsSpace).reverse.takeWhile pyIsSpace).reverse := by
  have h1 : (s.dropWhile pyIsSpace).reverse.takeWhile pyIsSpace
        ++ (s.dropWhile pyIsSpace).reverse.dropWhile pyIsSpace
      = (s.dropWhile pyIsSpace).reverse :=
    List.takeWhile_append_dropWhile _ _
  have h2 := congrArg List.reverse h1
  rw [List.reverse_append, List.reverse_reverse] at h2
  rw [pyStrip]
  exact h2.symm

theorem SuffOK_pyStrip (s : Str) (h : SuffOK s) : SuffOK (pyStrip s) := by
  have hm : SuffOK (s.dropWhile pyIsSpace) := SuffOK_dropWhile _ _ h
  rw [strip_split s] at hm
  apply SuffOK_drop_trailing _ _ _ hm
  intro c hc
  rw [List.mem_reverse] at hc
  exact List.mem_takeWhile_imp hc

theorem count_pyStrip (c : Char) (hc : pyIsSpace c = false) (l : Str) :
    (pyStrip l).count c = l.count c := by
  have hdec1 : l = l.takeWhile pyIsSpace ++ l.dropWhile pyIsSpace :=
    (List.takeWhile_append_dropWhile _ _).symm
  have hz1 : (l.takeWhile pyIsSpace).count c = 0 := by
    rw [List.count_eq_zero]
    intro hx
    rw [List.mem_takeWhile_imp hx] at hc
    exact Bool.noConfusion hc
  have hz2 : (((l.dropWhile pyIsSpace).reverse.takeWhile pyIsSpace).reverse).count c
      = 0 := by
    rw [List.count_eq_zero]
    intro hx
    rw [List.mem_reverse] at hx
    rw [List.mem_takeWhile_imp hx] at hc
    exact Bool.noConfusion hc
  conv_rhs => rw [hdec1, List.count_append, strip_split l, List.count_append]
  rw [hz1, hz2]
  omega

theorem charBeq_false_of_ne {a b : Char} (h : ¬ a = b) : (a == b) = false := by
  cases hx : (a == b)
  · rfl
  · exact absurd (by simpa using hx) h

theorem scanBody_closes : ∀ (l : Str) (d : Nat), 1 ≤ d → (d : ℤ) ≤ exc l →
    ∃ b r, scanBody d l = (b, r) ∧ l = b ++ ')' :: r ∧ exc b = (d : ℤ) - 1 := by
  intro l
  induction l with
  | nil =>
    intro d h1 h2
    exfalso
    have hz : exc ([] : Str) = 0 := by decide
    omega
  | cons c cs ih =>
    intro d h1 h2
    rw [exc_cons] at h2
    by_cases hcl : (c == ')' && d == 1) = true
    · have hc : c = ')' := by
        have h3 := (Bool.and_eq_true _ _).mp hcl
        simpa using h3.1
      have hd : d = 1 := by
        have h3 := (Bool.and_eq_true _ _).mp hcl
        simpa using h3.2
      subst hc
      subst hd
      refine ⟨[], cs, ?_, by simp, by decide⟩
      rw [scanBody, if_pos hcl]
    · by_cases hc1 : c = ')'
      · subst hc1
        have hd1 : ¬ d = 1 := by
          intro h
          subst h
          exact hcl (by decide)
      
        rw [if_pos rfl] at h2
        have hcs : ((d - 1 : Nat) : ℤ) ≤ exc cs := by omega
        obtain ⟨b, r, hscan, heq, hexc⟩ := ih (d - 1) (by omega) hcs
        have hcsne : cs ≠ [] := by
          intro h
          subst h
          have hz : exc ([] : Str) = 0 := by decide
          omega
        obtain ⟨x, xs, rfl⟩ : ∃ x xs, cs = x :: xs := by
          cases cs with
          | nil => exact absurd rfl hcsne
          | cons x xs => exact ⟨x, xs, rfl⟩
        refine ⟨')' :: b, r, ?_, ?_, ?_⟩
        · rw [scanBody, if_neg hcl, if_neg (by simp)]
          show ((')' :: (scanBody (d - 1) (x :: xs)).1,
            (scanBody (d - 1) (x :: xs)).2) : Str × Str) = _
          rw [hscan]
        · rw [heq]
          simp
        · rw [exc_cons, hexc, if_pos rfl]
          omega
      · by_cases hc2 : c = '('
        · subst hc2
          rw [if_neg (by decide), if_pos rfl] at h2
          have hcs : ((d + 1 : Nat) : ℤ) ≤ exc cs := by push_cast; omega
          obtain ⟨b, r, hscan, heq, hexc⟩ := ih (d + 1) (by omega) hcs
          have hcsne : cs ≠ [] := by
            intro h
            subst h
            have hz : exc ([] : Str) = 0 := by decide
            rw [hz] at hcs
            push_cast at hcs
            omega
          obtain ⟨x, xs, rfl⟩ : ∃ x xs, cs = x :: xs := by
            cases cs with
            | nil => exact absurd rfl hcsne
            | cons x xs => exact ⟨x, xs, rfl⟩
          refine ⟨'(' :: b, r, ?_, ?_, ?_⟩
          · rw [scanBody, if_neg hcl, if_neg (by simp)]
            show (('(' :: (scanBody (d + 1) (x :: xs)).1,
              (scanBody (d + 1) (x :: xs)).2) : Str × Str) = _
            rw [hscan]
          · rw [heq]
            simp
          · rw [exc_cons, hexc, if_neg (by decide), if_pos rfl]
            push_cast
            omega
        · rw [if_neg hc1, if_neg hc2] at h2
          have hcs : (d : ℤ) ≤ exc cs := by omega
          obtain ⟨b, r, hscan, heq, hexc⟩ := ih d h1 hcs
          have hcsne : cs ≠ [] := by
            intro h
            subst h
            have hz : exc ([] : Str) = 0 := by decide
            omega
          obtain ⟨x, xs, rfl⟩ : ∃ x xs, cs = x :: xs := by
            cases cs with
            | nil => exact absurd rfl hcsne
            | cons x xs => exact ⟨x, xs, rfl⟩
          have e1 : (c == '(') = false := charBeq_false_of_ne hc2
          have e2 : (c == ')') = false := charBeq_false_of_ne hc1
          refine ⟨c :: b, r, ?_, ?_, ?_⟩
          · rw [scanBody, if_neg hcl, if_neg (by simp)]
            simp only [e1, e2, Bool.false_eq_true, if_false]
            rw [hscan]
          · rw [heq]
            simp
          · rw [exc_cons, hexc, if_neg hc1, if_neg hc2]
            omega

theorem asParen_mem (r : Str) (h : asParenCheck r = true) : '(' ∈ r := by
  match r with
  | [] => simp [asParenCheck] at h
  | [c1] => simp [asParenCheck] at h
  | c1 :: c2 :: rr =>
    simp only [asParenCheck, Bool.and_eq_true] at h
    obtain ⟨⟨_, _⟩, h3⟩ := h
    have h4 : (rr.dropWhile pyIsSpace).head? = some '(' := by simpa using h3
    have h5 : '(' ∈ rr.dropWhile pyIsSpace := by
      cases hx : rr.dropWhile pyIsSpace with
      | nil => rw [hx] at h4; simp at h4
      | cons y ys =>
        rw [hx] at h4
        simp only [List.head?] at h4
        cases h4
        simp
    have h6 : '(' ∈ rr := by
      have h7 : '(' ∈ rr.takeWhile pyIsSpace ++ rr.dropWhile pyIsSpace :=
        List.mem_append.mpr (Or.inr h5)
      rwa [List.takeWhile_append_dropWhile] at h7
    simp [h6]

theorem dropWhile_to_lparen (r : Str) (h : '(' ∈ r) :
    ∃ t, r.dropWhile (fun c => !(c == '(')) = '(' :: t := by
  induction r with
  | nil => simp at h
  | cons c cs ih =>
    by_cases hc : c = '('
    · subst hc
      exact ⟨cs, by rw [List.dropWhile_cons_of_neg (by simp)]⟩
    · have h2 : '(' ∈ cs := by
        rcases List.mem_cons.mp h with h3 | h3
        · exact absurd h3.symm hc
        · exact h3
      obtain ⟨t, ht⟩ := ih h2
      refine ⟨t, ?_⟩
      rw [List.dropWhile_cons_of_pos (by simp [charBeq_false_of_ne hc])]
      exact ht

theorem parseLoop_balanced_aux : ∀ (n : Nat) (rest : Str), rest.length ≤ n →
    SuffOK rest → ∀ p ∈ parseLoop rest, p.2.count '(' = p.2.count ')' := by
  intro n
  induction n with
  | zero =>
    intro rest hlen hs p hp
    have hnil : rest = [] := List.eq_nil_of_length_eq_zero (by omega)
    subst hnil
    rw [parseLoop_eq] at hp
    simp [nameOf, stage1, matchName] at hp
  | succ n ih =>
    intro rest hlen hs p hp
    rw [parseLoop_eq] at hp
    by_cases h1 : nameOf rest = []
    · rw [if_pos h1] at hp
      simp at hp
    · rw [if_neg h1] at hp
      by_cases h2 : asParenCheck (stage3 rest) = true
      · rw [if_pos h2] at hp
        have hsA : SuffOK (stage1 rest) := by
          rw [stage1]
          exact SuffOK_dropWhile _ _ hs
        have hsB : SuffOK (stage2 rest) := by
          rw [stage2]
          exact SuffOK_drop _ _ hsA
        have hsC : SuffOK (stage3 rest) := by
          rw [stage3]
          exact SuffOK_dropWhile _ _ hsB
        obtain ⟨t, ht⟩ := dropWhile_to_lparen _ (asParen_mem _ h2)
        have hst4 : stage4 rest = t := by
          rw [stage4, ht]
          rfl
        have hsD : SuffOK ('(' :: t) := by
          rw [← ht]
          exact SuffOK_dropWhile _ _ hsC
        have hexct : 1 ≤ exc t := by
          have h3 := hsD 0 (by omega)
          rw [List.take_zero] at h3
          rw [exc_cons, if_neg (by decide), if_pos rfl] at h3
          have hz : exc ([] : Str) = 0 := by decide
          omega
        obtain ⟨b, r, hscan, hteq, hexcb⟩ :=
          scanBody_closes t 1 (by omega) (by push_cast; omega)
        have hbody : bodyOf rest = b := by
          rw [bodyOf, hst4, hscan]
        have hst5 : stage5 rest = r := by
          rw [stage5, hst4, hscan]
        rcases List.mem_cons.mp hp with rfl | hp2
        · show (pyStrip (bodyOf rest)).count '(' = (pyStrip (bodyOf rest)).count ')'
          rw [hbody, count_pyStrip '(' (by decide), count_pyStrip ')' (by decide)]
          simp only [exc] at hexcb
          omega
        · by_cases h3 : ((stage6 rest).head? == some ',') = true
          · rw [if_pos h3] at hp2
            have hsT : SuffOK t := SuffOK_of_append ['('] t hsD
            have hsR : SuffOK r := by
              apply SuffOK_of_append (b ++ [')']) r
              have : (b ++ [')']) ++ r = b ++ ')' :: r := by simp
              rw [this, ← hteq]
              exact hsT
            have hs6 : SuffOK (stage6 rest) := by
              rw [stage6, hst5]
              exact SuffOK_dropWhile _ _ hsR
            have hlt := stage6_length_lt rest h1
            exact ih (stage6 rest) (by omega) hs6 p hp2
          · rw [if_neg h3] at hp2
            simp at hp2
      · rw [if_neg h2] at hp
        simp at hp

/-! ### Entry into the scanner for canonical well-formed statements -/

theorem wfText_cons (d : Decl) (decls : List Decl) (tail : Str) :
    wfText d decls tail
      = 'w' :: 'i' :: 't' :: 'h' :: ((d.sep ++ d.text) ++ declsSuffix decls tail) := by
  rw [wfText]
  rfl

theorem matchesWithAt_wfText (d : Decl) (decls : List Decl) (tail : Str)
    (hd : d.OK) (hsepne : d.sep ≠ []) :
    matchesWithAt (wfText d decls tail) 0 = true := by
  obtain ⟨s0, stl, hseq⟩ : ∃ s0 stl, d.sep = s0 :: stl := by
    cases hx : d.sep with
    | nil => exact absurd hx hsepne
    | cons a b => exact ⟨a, b, rfl⟩
  have hs0 : isWordChar s0 = false :=
    skipChar_not_word (hd.1 s0 (by rw [hseq]; simp))
  have hshape : wfText d decls tail
      = 'w' :: 'i' :: 't' :: 'h' :: (s0 :: ((stl ++ d.text) ++ declsSuffix decls tail)) := by
    rw [wfText_cons, hseq]
    simp
  rw [hshape]
  simp [matchesWithAt, hs0]

theorem findWithEnd_wfText (d : Decl) (decls : List Decl) (tail : Str)
    (hd : d.OK) (hsepne : d.sep ≠ []) :
    findWithEnd (wfText d decls tail) = some 4 := by
  rw [findWithEnd]
  have hlen : 0 < (wfText d decls tail).length := by
    rw [wfText_cons]
    simp
  obtain ⟨m, hm⟩ : ∃ m, (wfText d decls tail).length = m + 1 :=
    ⟨_, (Nat.succ_pred_eq_of_pos hlen).symm⟩
  rw [hm, List.range_succ_eq_map]
  have hfind : List.find? (fun i => matchesWithAt (wfText d decls tail) i)
      (0 :: (List.range m).map (· + 1)) = some 0 :=
    List.find?_cons_of_pos _ (matchesWithAt_wfText d decls tail hd hsepne)
  rw [hfind]
  rfl

theorem segment_wfText (d : Decl) (decls : List Decl) (tail : Str)
    (hd : d.OK) (hds : ∀ x ∈ decls, x.OK) (hsepne : d.sep ≠ [])
    (hstrip : pyStrip (wfText d decls tail) = wfText d decls tail) :
    parse_cte_sql (wfText d decls tail)
      = (d :: decls).map entryOf
        ++ (if (tail.dropWhile pyIsSpace).head? == some ',' then
              parseLoop (tail.dropWhile pyIsSpace)
            else []) := by
  have hdrop : (wfText d decls tail).drop 4
      = ([] ++ d.sep) ++ (d.text ++ declsSuffix decls tail) := by
    rw [wfText_cons]
    simp
  rw [parse_cte_sql]
  simp only [hstrip, findWithEnd_wfText d decls tail hd hsepne]
  rw [hdrop]
  exact parseLoop_gram decls d [] tail hd hds (by simp)

/-! ### Lifting a keyword occurrence through surrounding whitespace -/

theorem space_not_word {c : Char} (h : pyIsSpace c = true) :
    isWordChar c = false := by
  rcases of_pyIsSpace h with rfl | rfl | rfl | rfl | rfl | rfl <;> decide

theorem matchesWithAt_lift (a b t : Str) (i : Nat)
    (ha : ∀ c ∈ a, pyIsSpace c = true) (ht : ∀ c ∈ t, pyIsSpace c = true)
    (h : matchesWithAt b i = true) :
    matchesWithAt (a ++ (b ++ t)) (a.length + i) = true := by
  obtain ⟨c1, c2, c3, c4, r, hbd⟩ : ∃ c1 c2 c3 c4 r,
      b.drop i = c1 :: c2 :: c3 :: c4 :: r := by
    rcases hx : b.drop i with _ | ⟨c1, _ | ⟨c2, _ | ⟨c3, _ | ⟨c4, r⟩⟩⟩⟩ <;>
      simp only [matchesWithAt, hx] at h
    · exact absurd h (by simp)
    · exact absurd h (by simp)
    · exact absurd h (by simp)
    · exact absurd h (by simp)
    · exact ⟨c1, c2, c3, c4, r, rfl⟩
  simp only [matchesWithAt, hbd, Bool.and_eq_true] at h
  obtain ⟨⟨⟨⟨⟨hw1, hw2⟩, hw3⟩, hw4⟩, hb5⟩, hb6⟩ := h
  have hblen : b.length - i = r.length + 4 := by
    have := congrArg List.length hbd
    simpa [List.length_drop] using this
  have hilt : i < b.length := by omega
  have hd1 : (a ++ (b ++ t)).drop (a.length + i) = (b ++ t).drop i := by
    rw [List.drop_append]
  have hd2 : (b ++ t).drop i = (b.drop i) ++ t :=
    List.drop_append_of_le_length (by omega)
  have hshape : (a ++ (b ++ t)).drop (a.length + i)
      = c1 :: c2 :: c3 :: c4 :: (r ++ t) := by
    rw [hd1, hd2, hbd]
    rfl
  simp only [matchesWithAt, hshape, Bool.and_eq_true]
  refine ⟨⟨⟨⟨⟨hw1, hw2⟩, hw3⟩, hw4⟩, ?_⟩, ?_⟩
  · -- word boundary on the left
    by_cases hi : i = 0
    · subst hi
      by_cases han : a = []
      · subst han
        simp
      · have hlenpos : 0 < a.length := List.length_pos.mpr han
        have hidx : a.length - 1 < a.length := by omega
        have hgd : (a ++ (b ++ t)).getD (a.length + 0 - 1) ' '
            = a.getD (a.length - 1) ' ' := by
          rw [Nat.add_zero, List.getD_eq_getElem?_getD, List.getD_eq_getElem?_getD,
            List.getElem?_append_left (by omega)]
        have hmem : a.getD (a.length - 1) ' ' ∈ a := by
          rw [List.getD_eq_getElem?_getD, List.getElem?_eq_getElem hidx]
          exact List.getElem_mem _
        rw [Bool.or_eq_true]
        right
        rw [hgd, space_not_word (ha _ hmem)]
        rfl
    · have hb5' : isWordChar (b.getD (i - 1) ' ') = false := by
        rw [Bool.or_eq_true] at hb5
        rcases hb5 with h5 | h5
        · exact absurd (by simpa using h5) hi
        · simpa using h5
      have hieq : a.length + i - 1 = a.length + (i - 1) := by omega
      have hgd : (a ++ (b ++ t)).getD (a.length + i - 1) ' '
          = b.getD (i - 1) ' ' := by
        rw [hieq, List.getD_eq_getElem?_getD,
          List.getElem?_append_right (by omega : a.length ≤ a.length + (i - 1))]
        have : a.length + (i - 1) - a.length = i - 1 := by omega
        rw [this, List.getElem?_append_left (by omega : i - 1 < b.length),
          List.getD_eq_getElem?_getD]
      rw [Bool.or_eq_true]
      right
      rw [hgd, hb5']
      rfl
  · -- word boundary on the right
    cases r with
    | cons c5 rs => exact hb6
    | nil =>
      cases t with
      | nil => rfl
      | cons c5 ts =>
        show (!isWordChar c5) = true
        rw [space_not_word (ht c5 (by simp))]
        rfl

theorem strip_decomp (s : Str) : ∃ a t, s = a ++ (pyStrip s ++ t)
    ∧ (∀ c ∈ a, pyIsSpace c = true) ∧ (∀ c ∈ t, pyIsSpace c = true) := by
  refine ⟨s.takeWhile pyIsSpace,
    ((s.dropWhile pyIsSpace).reverse.takeWhile pyIsSpace).reverse, ?_, ?_, ?_⟩
  · calc s = s.takeWhile pyIsSpace ++ s.dropWhile pyIsSpace :=
        (List.takeWhile_append_dropWhile _ _).symm
    _ = s.takeWhile pyIsSpace
          ++ (pyStrip s
            ++ ((s.dropWhile pyIsSpace).reverse.takeWhile pyIsSpace).reverse) := by
        rw [← strip_split s]
  · intro c hc
    exact List.mem_takeWhile_imp hc
  · intro c hc
    rw [List.mem_reverse] at hc
    exact List.mem_takeWhile_imp hc

theorem no_with_no_find (s : Str)
    (h : ∀ i, i < s.length → matchesWithAt s i = false) :
    findWithEnd (pyStrip s) = none := by
  rw [findWithEnd]
  rw [List.find?_eq_none.mpr]
  · rfl
  intro i hi hmi
  rw [List.mem_range] at hi
  obtain ⟨a, t, hdecomp, ha, ht⟩ := strip_decomp s
  have hlift := matchesWithAt_lift a (pyStrip s) t i ha ht hmi
  rw [← hdecomp] at hlift
  have hlen : a.length + i < s.length := by
    have h2 : s.length = a.length + ((pyStrip s).length + t.length) := by
      conv_lhs => rw [hdecomp]
      simp
    omega
  rw [h _ hlen] at hlift
  exact Bool.noConfusion hlift

theorem buildLoopF_correct : ∀ (n : Nat) (l acc res : List (Str × Str)),
    l.length < n → buildLoopF n acc res l = some (buildLoop acc res l) := by
  intro n
  induction n with
  | zero => intro l acc res h; omega
  | succ n ih =>
    intro l acc res h
    cases l with
    | nil => rfl
    | cons p l2 =>
      obtain ⟨pn, pb⟩ := p
      rw [buildLoopF, buildLoop]
      exact ih l2 _ _ (by simp at h; omega)

theorem parse_concrete (s : Str) (out : List (Str × Str))
    (h : parse_cte_sqlF s = some out) : parse_cte_sql s = out :=
  Option.some.inj ((parse_cte_sqlF_correct s).symm.trans h)

/-! ### Claim theorems -/

/-- Claim C1: for every ordered input sequence of pairs and every 1-indexed
position K, the statement stored by the reconstructor for the K-th pair is
exactly the prefix `WITH\n`, then the renderings `<name> AS (\n<body>\n)` of
the pairs at positions 1..K in original order (bodies verbatim) joined by
`,\n`, then the suffix `\nSELECT * FROM <nameK>`; hence it declares exactly
the first K pairs and nothing beyond position K.  (Stated through the mapping
built from the first K pairs, which is where that statement is stored.) -/
theorem claim_C1_reconstruct_prefix (ctes : List (Str × Str)) (k : Nat)
    (hk : k < ctes.length) :
    dictLookup (build_executable_cte_sql (ctes.take (k + 1)))
        (ctes.get ⟨k, hk⟩).1
      = some (("WITH\n".toList)
          ++ List.intercalate (",\n".toList) ((ctes.take (k + 1)).map renderPart)
          ++ ("\nSELECT * FROM ".toList) ++ (ctes.get ⟨k, hk⟩).1) := by
  have htake : ctes.take (k + 1) = ctes.take k ++ [ctes.get ⟨k, hk⟩] := by
    rw [List.take_succ, List.getElem?_eq_getElem hk]
    rfl
  rw [build_executable_cte_sql, htake,
    buildLoop_lookup_at (ctes.get ⟨k, hk⟩) [] (by simp) (ctes.take k) [] []]
  rw [List.nil_append, ← htake]
  rfl

theorem claim_C1_witness :
    1 < ([("a".toList, "x".toList), ("b".toList, "y".toList)]
        : List (Str × Str)).length
    ∧ dictLookup (build_executable_cte_sql
          ((([("a".toList, "x".toList), ("b".toList, "y".toList)]
            : List (Str × Str))).take 2)) ("b".toList)
        = some (("WITH\n".toList)
            ++ List.intercalate (",\n".toList)
              (((([("a".toList, "x".toList), ("b".toList, "y".toList)]
                : List (Str × Str))).take 2).map renderPart)
            ++ ("\nSELECT * FROM ".toList) ++ ("b".toList)) :=
  ⟨by decide, claim_C1_reconstruct_prefix
    [("a".toList, "x".toList), ("b".toList, "y".toList)] 1 (by decide)⟩

/-- Claim C7: when an earlier entry of the input sequence shares its name with
a later entry `x` (and no entry after `x` has that name), the name-keyed
mapping built by the reconstructor holds exactly one entry under that name,
namely the statement built for the later occurrence `x` (declaring everything
up to and including `x`); the earlier occurrence's statement is not
retrievable. -/
theorem claim_C7_duplicate_names (a : List (Str × Str)) (x : Str × Str)
    (b : List (Str × Str))
    (hb : ∀ p ∈ b, ¬ p.1 = x.1) (ha : ∃ p ∈ a, p.1 = x.1) :
    dictLookup (build_executable_cte_sql (a ++ x :: b)) x.1
        = some (fullStmt (a ++ [x]) x.1)
      ∧ (build_executable_cte_sql (a ++ x :: b)).countP
          (fun p => p.1 == x.1) = 1 := by
  constructor
  · rw [build_executable_cte_sql, buildLoop_lookup_at x b hb a [] []]
    rw [List.nil_append]
  · apply countP_key_one
    · exact buildLoop_keys_nodup _ [] [] (by simp)
    · refine ⟨fullStmt (a ++ [x]) x.1, ?_⟩
      rw [build_executable_cte_sql, buildLoop_lookup_at x b hb a [] []]
      rw [List.nil_append]

theorem claim_C7_witness :
    (∀ p ∈ ([] : List (Str × Str)), ¬ p.1 = ("a".toList, "s2".toList).1)
    ∧ (∃ p ∈ [(("a".toList, "s1".toList) : Str × Str)],
        p.1 = ("a".toList, "s2".toList).1)
    ∧ (dictLookup (build_executable_cte_sql
          ([("a".toList, "s1".toList)] ++ ("a".toList, "s2".toList) :: []))
          ("a".toList, "s2".toList).1
        = some (fullStmt ([("a".toList, "s1".toList)]
            ++ [("a".toList, "s2".toList)]) ("a".toList, "s2".toList).1)
      ∧ (build_executable_cte_sql
          ([("a".toList, "s1".toList)] ++ ("a".toList, "s2".toList) :: [])).countP
            (fun p => p.1 == ("a".toList, "s2".toList).1) = 1) :=
  ⟨by decide, by decide,
    claim_C7_duplicate_names [("a".toList, "s1".toList)]
      ("a".toList, "s2".toList) [] (by decide) (by decide)⟩

/-- Claim C10: for every input string the segmenter terminates — it completes
within an iteration budget of `length + 1` rounds, signalled by the fuelled
mirror returning `some` of the segmenter's value rather than the exhaustion
marker — and likewise the reconstructor's loop completes on every input
sequence within `length + 1` rounds; no failure value arises, malformed input
only yields smaller or empty output structures. -/
theorem claim_C10_total (s : Str) (ctes : List (Str × Str)) :
    parse_cte_sqlF s = some (parse_cte_sql s)
      ∧ buildLoopF (ctes.length + 1) [] [] ctes
          = some (build_executable_cte_sql ctes) :=
  ⟨parse_cte_sqlF_correct s, buildLoopF_correct _ _ _ _ (by omega)⟩

/-- Claim C9: if the input statement has balanced parentheses overall (every
prefix has at least as many `(` as `)` and the totals agree), then every body
captured by the segmenter contains equally many `(` and `)` characters. -/
theorem claim_C9_bracket_balance (s : Str) (h : BalancedAll s) :
    ∀ p ∈ parse_cte_sql s, p.2.count '(' = p.2.count ')' := by
  have hS : SuffOK s := by
    intro i hi
    rw [h.2]
    exact h.1 i hi
  intro p hp
  simp only [parse_cte_sql] at hp
  cases hf : findWithEnd (pyStrip s) with
  | none =>
    rw [hf] at hp
    simp at hp
  | some pos =>
    rw [hf] at hp
    exact parseLoop_balanced_aux ((pyStrip s).drop pos).length _ (le_refl _)
      (SuffOK_drop pos _ (SuffOK_pyStrip s hS)) p hp

theorem claim_C9_witness :
    BalancedAll ("with a as (select * from (t) x) select * from a".toList)
    ∧ ∀ p ∈ parse_cte_sql
        ("with a as (select * from (t) x) select * from a".toList),
      p.2.count '(' = p.2.count ')' :=
  ⟨by decide, claim_C9_bracket_balance _ (by decide)⟩

/-- Claim C6: for every input statement with no whole-word, case-insensitive
occurrence of `with`, the segmenter returns the empty sequence, and the
reconstructor applied to the empty sequence returns the empty mapping. -/
theorem claim_C6_no_with (s : Str)
    (h : ∀ i, i < s.length → matchesWithAt s i = false) :
    parse_cte_sql s = [] ∧ build_executable_cte_sql [] = [] := by
  constructor
  · simp only [parse_cte_sql, no_with_no_find s h]
  · rfl

theorem claim_C6_witness :
    (∀ i, i < ("select * from t".toList).length
        → matchesWithAt ("select * from t".toList) i = false)
    ∧ parse_cte_sql ("select * from t".toList) = []
    ∧ build_executable_cte_sql [] = [] :=
  ⟨by decide, claim_C6_no_with ("select * from t".toList) (by decide)⟩

/-- Claim C4 (amended): for every well-formed multi-CTE statement in the
canonical form `with` + declarations `name AS (balanced-body)` separated by a
comma plus a run of separator characters the scanner actually skips — space,
newline, tab or comma, not carriage return, vertical tab or form feed —
followed by a final query whose first non-whitespace character is not a
comma, the segmenter returns one pair per declaration with the names in
declaration order. -/
theorem claim_C4_wellformed (d : Decl) (decls : List Decl) (tail : Str)
    (hd : d.OK) (hds : ∀ x ∈ decls, x.OK) (hsepne : d.sep ≠ [])
    (htail : ¬ (tail.dropWhile pyIsSpace).head? = some ',')
    (hstrip : pyStrip (wfText d decls tail) = wfText d decls tail) :
    (parse_cte_sql (wfText d decls tail)).map Prod.fst
        = (d :: decls).map Decl.name
      ∧ (parse_cte_sql (wfText d decls tail)).length = (d :: decls).length := by
  have hmain := segment_wfText d decls tail hd hds hsepne hstrip
  rw [if_neg (by simpa using htail), List.append_nil] at hmain
  constructor
  · rw [hmain, List.map_map]
    apply List.map_congr_left
    intro x _
    rfl
  · rw [hmain, List.length_map]

/-- Claim C4 counterexample: the statement
`with a as (select 1),\rb as (select 2) select * from b` is well formed in
the claim's sense — two declarations separated by a comma plus whitespace
(a carriage return) — yet the segmenter returns only the first declaration,
because the top-of-loop skip set ` \n\t,` does not contain `\r`. -/
theorem claim_C4_counterexample :
    parse_cte_sql
        ("with a as (select 1),\rb as (select 2) select * from b".toList)
      = [("a".toList, "select 1".toList)]
    ∧ ¬ (parse_cte_sql
        ("with a as (select 1),\rb as (select 2) select * from b".toList)).length
      = 2 := by
  have hseg : parse_cte_sql
      ("with a as (select 1),\rb as (select 2) select * from b".toList)
      = [("a".toList, "select 1".toList)] := parse_concrete _ _ (by decide)
  exact ⟨hseg, by rw [hseg]; decide⟩

theorem claim_C4_witness :
    (Decl.mk (" ".toList) ("a".toList) (" ".toList) 'a' 's' []
        ("select 1".toList)).OK
    ∧ (∀ x ∈ [Decl.mk (" ".toList) ("b".toList) (" ".toList) 'a' 's' []
        ("select 2".toList)], x.OK)
    ∧ (Decl.mk (" ".toList) ("a".toList) (" ".toList) 'a' 's' []
        ("select 1".toList)).sep ≠ []
    ∧ ¬ ((" select * from b".toList).dropWhile pyIsSpace).head? = some ','
    ∧ pyStrip (wfText
        (Decl.mk (" ".toList) ("a".toList) (" ".toList) 'a' 's' []
          ("select 1".toList))
        [Decl.mk (" ".toList) ("b".toList) (" ".toList) 'a' 's' []
          ("select 2".toList)]
        (" select * from b".toList))
      = wfText
        (Decl.mk (" ".toList) ("a".toList) (" ".toList) 'a' 's' []
          ("select 1".toList))
        [Decl.mk (" ".toList) ("b".toList) (" ".toList) 'a' 's' []
          ("select 2".toList)]
        (" select * from b".toList)
    ∧ ((parse_cte_sql (wfText
          (Decl.mk (" ".toList) ("a".toList) (" ".toList) 'a' 's' []
            ("select 1".toList))
          [Decl.mk (" ".toList) ("b".toList) (" ".toList) 'a' 's' []
            ("select 2".toList)]
          (" select * from b".toList))).map Prod.fst
        = ([Decl.mk (" ".toList) ("a".toList) (" ".toList) 'a' 's' []
              ("select 1".toList),
            Decl.mk (" ".toList) ("b".toList) (" ".toList) 'a' 's' []
              ("select 2".toList)]).map Decl.name
      ∧ (parse_cte_sql (wfText
          (Decl.mk (" ".toList) ("a".toList) (" ".toList) 'a' 's' []
            ("select 1".toList))
          [Decl.mk (" ".toList) ("b".toList) (" ".toList) 'a' 's' []
            ("select 2".toList)]
          (" select * from b".toList))).length
        = ([Decl.mk (" ".toList) ("a".toList) (" ".toList) 'a' 's' []
              ("select 1".toList),
            Decl.mk (" ".toList) ("b".toList) (" ".toList) 'a' 's' []
              ("select 2".toList)]).length) :=
  ⟨by decide, by decide, by decide, by decide, by decide,
    claim_C4_wellformed _ _ _ (by decide) (by decide) (by decide) (by decide)
      (by decide)⟩

/-- Claim C8: when, after any number of well-formed captured declarations, the
text continues with a comma, separator characters, and an identifier that is
not followed (after optional whitespace) by `AS` and an opening parenthesis,
the segmenter stops there and returns exactly the pairs captured so far, with
no error. -/
theorem claim_C8_malformed_stop (d : Decl) (decls : List Decl)
    (wsC sepB bname brest : Str)
    (hd : d.OK) (hds : ∀ x ∈ decls, x.OK) (hsepne : d.sep ≠ [])
    (hwsC : ∀ c ∈ wsC, pyIsSpace c = true)
    (hsepB : ∀ c ∈ sepB, skipChar c = true)
    (hbn : bname ≠ []) (hbst : isIdentStart (bname.headD ' ') = true)
    (hball : ∀ c ∈ bname.tail, isIdentChar c = true)
    (hbrest : ∀ c, brest.head? = some c → isIdentChar c = false)
    (hAS : asParenCheck (brest.dropWhile pyIsSpace) = false)
    (hstrip : pyStrip (wfText d decls (wsC ++ ',' :: (sepB ++ (bname ++ brest))))
        = wfText d decls (wsC ++ ',' :: (sepB ++ (bname ++ brest)))) :
    parse_cte_sql (wfText d decls (wsC ++ ',' :: (sepB ++ (bname ++ brest))))
      = (d :: decls).map entryOf := by
  obtain ⟨b0, btl, rfl⟩ : ∃ b0 btl, bname = b0 :: btl := by
    cases bname with
    | nil => exact absurd rfl hbn
    | cons a b => exact ⟨a, b, rfl⟩
  have hb0 : isIdentStart b0 = true := by simpa using hbst
  have hmain := segment_wfText d decls (wsC ++ ',' :: (sepB ++ ((b0 :: btl) ++ brest)))
    hd hds hsepne hstrip
  have hdw : (wsC ++ ',' :: (sepB ++ ((b0 :: btl) ++ brest))).dropWhile pyIsSpace
      = ',' :: (sepB ++ ((b0 :: btl) ++ brest)) := by
    apply dropWhile_append_sat _ _ _ hwsC
    intro c hc
    simp only [List.head?] at hc
    cases hc
    decide
  rw [hdw, if_pos (by simp)] at hmain
  have hzero : parseLoop (',' :: (sepB ++ ((b0 :: btl) ++ brest))) = [] := by
    have hst1 : stage1 (',' :: (sepB ++ ((b0 :: btl) ++ brest)))
        = (b0 :: btl) ++ brest := by
      rw [stage1]
      have hsh : (',' :: (sepB ++ ((b0 :: btl) ++ brest)))
          = (',' :: sepB) ++ ((b0 :: btl) ++ brest) := by simp
      rw [hsh]
      apply dropWhile_append_sat
      · intro c hc
        rcases List.mem_cons.mp hc with rfl | hc2
        · decide
        · exact hsepB c hc2
      · intro c hc
        simp only [List.cons_append, List.head?] at hc
        cases hc
        exact identStart_not_skip hb0
    have hnm : nameOf (',' :: (sepB ++ ((b0 :: btl) ++ brest))) = b0 :: btl := by
      rw [nameOf, hst1, List.cons_append, matchName, if_pos hb0]
      rw [takeWhile_append_sat _ btl brest
        (fun c hc => hball c (by simpa using hc)) hbrest]
    have hst2 : stage2 (',' :: (sepB ++ ((b0 :: btl) ++ brest))) = brest := by
      rw [stage2, hst1, hnm, List.drop_left]
    have hst3 : stage3 (',' :: (sepB ++ ((b0 :: btl) ++ brest)))
        = brest.dropWhile pyIsSpace := by
      rw [stage3, hst2]
    rw [parseLoop_eq, if_neg (by rw [hnm]; simp), if_neg (by rw [hst3]; simp [hAS])]
  rw [hzero, List.append_nil] at hmain
  exact hmain

theorem claim_C8_witness :
    (Decl.mk (" ".toList) ("a".toList) (" ".toList) 'a' 's' []
        ("select 1".toList)).OK
    ∧ (∀ x ∈ ([] : List Decl), x.OK)
    ∧ (Decl.mk (" ".toList) ("a".toList) (" ".toList) 'a' 's' []
        ("select 1".toList)).sep ≠ []
    ∧ (∀ c ∈ ([] : Str), pyIsSpace c = true)
    ∧ (∀ c ∈ (" ".toList : Str), skipChar c = true)
    ∧ ("b".toList : Str) ≠ []
    ∧ isIdentStart (("b".toList : Str).headD ' ') = true
    ∧ (∀ c ∈ ("b".toList : Str).tail, isIdentChar c = true)
    ∧ (∀ c, (" from x".toList : Str).head? = some c → isIdentChar c = false)
    ∧ asParenCheck ((" from x".toList : Str).dropWhile pyIsSpace) = false
    ∧ pyStrip (wfText
        (Decl.mk (" ".toList) ("a".toList) (" ".toList) 'a' 's' []
          ("select 1".toList)) []
        (([] : Str) ++ ',' :: ((" ".toList) ++ (("b".toList) ++ (" from x".toList)))))
      = wfText
        (Decl.mk (" ".toList) ("a".toList) (" ".toList) 'a' 's' []
          ("select 1".toList)) []
        (([] : Str) ++ ',' :: ((" ".toList) ++ (("b".toList) ++ (" from x".toList))))
    ∧ parse_cte_sql (wfText
        (Decl.mk (" ".toList) ("a".toList) (" ".toList) 'a' 's' []
          ("select 1".toList)) []
        (([] : Str) ++ ',' :: ((" ".toList) ++ (("b".toList) ++ (" from x".toList)))))
      = ([Decl.mk (" ".toList) ("a".toList) (" ".toList) 'a' 's' []
          ("select 1".toList)]).map entryOf :=
  ⟨by decide, by decide, by decide, by decide, by decide, by decide, by decide,
    by decide, by decide, by decide, by decide,
    claim_C8_malformed_stop _ [] [] (" ".toList) ("b".toList) (" from x".toList)
      (by decide) (by decide) (by decide) (by decide) (by decide) (by decide)
      (by decide) (by decide) (by decide) (by decide) (by decide)⟩

/-- Claim C2: on `with a as (select 1), b as (select * from a) select * from b`
the segmenter returns exactly `[(a, select 1), (b, select * from a)]` in that
order, and the reconstructor maps `a` and `b` to the expected standalone
statements. -/
theorem claim_C2_scenario1 :
    parse_cte_sql
        ("with a as (select 1), b as (select * from a) select * from b".toList)
      = [("a".toList, "select 1".toList),
         ("b".toList, "select * from a".toList)]
    ∧ dictLookup (build_executable_cte_sql (parse_cte_sql
        ("with a as (select 1), b as (select * from a) select * from b".toList)))
        ("a".toList)
      = some ("WITH\na AS (\nselect 1\n)\nSELECT * FROM a".toList)
    ∧ dictLookup (build_executable_cte_sql (parse_cte_sql
        ("with a as (select 1), b as (select * from a) select * from b".toList)))
        ("b".toList)
      = some
        ("WITH\na AS (\nselect 1\n),\nb AS (\nselect * from a\n)\nSELECT * FROM b".toList) := by
  have hseg : parse_cte_sql
      ("with a as (select 1), b as (select * from a) select * from b".toList)
      = [("a".toList, "select 1".toList),
         ("b".toList, "select * from a".toList)] := parse_concrete _ _ (by decide)
  refine ⟨hseg, ?_, ?_⟩
  · rw [hseg]
    decide
  · rw [hseg]
    decide

/-- Claim C3 counterexample: on the unbalanced input `with a as (select 1` the
captured body is not `select 1`: the slice `sql[start:pos - 1]` cuts the final
character when the loop stops at end-of-input, so the body is `select`. -/
theorem claim_C3_counterexample :
    ¬ parse_cte_sql ("with a as (select 1".toList)
        = [("a".toList, "select 1".toList)] := by
  have hseg : parse_cte_sql ("with a as (select 1".toList)
      = [("a".toList, "select".toList)] := parse_concrete _ _ (by decide)
  rw [hseg]
  decide

/-- Claim C3 (amended): on the unbalanced input `with a as (select 1` the
segmenter returns exactly one entry named `a` and raises no error, but the
body runs only to the character before end-of-input: the final `1` is cut by
the `end = pos - 1` slice, and after trimming the body is `select`. -/
theorem claim_C3_unbalanced :
    parse_cte_sql ("with a as (select 1".toList)
      = [("a".toList, "select".toList)] := parse_concrete _ _ (by decide)

/-- Claim C5: nested parentheses inside a body increase the tracked depth and
do not end the body scan early: on
`with a as (select * from (select 1) x) select * from a` the single captured
body is `select * from (select 1) x`. -/
theorem claim_C5_nested_parens :
    parse_cte_sql
        ("with a as (select * from (select 1) x) select * from a".toList)
      = [("a".toList, "select * from (select 1) x".toList)] :=
  parse_concrete _ _ (by decide)
